import Mathlib

set_option maxHeartbeats 1000000

namespace MerkleSpec

/-!
Shallow embedding of the sparse Merkle tree implementation in
`src/src/merkle_tree.ts`.

Modelling choices:
* a byte buffer holding a leaf payload is a `List ℕ` (one entry per byte);
* a digest is a value of an arbitrary type `α` produced by a `Hasher α`
  (`hash` digests a 64-byte leaf payload, `compress` two child digests),
  mirroring the `Hasher` interface the source is written against;
* the JS `Map<number, Buffer>` used for `LazyTree.nodes` is an association
  list with the `Map.get` / `Map.set` semantics (`mget` / `mset`);
* the levelup store is modelled by the outcomes of the individual store
  operations (`Except DbError`), since the tree only observes those
  outcomes.
-/

/-- Lookup in the association-list model of `Map<number, Buffer>`
(JS `Map.prototype.get`, `undefined` becoming `none`). -/
def mget {α : Type} : List (ℕ × α) → ℕ → Option α
  | [], _ => none
  | (k', v) :: rest, k => if k' = k then some v else mget rest k

/-- Insert-or-replace in the association-list model of `Map<number, Buffer>`
(JS `Map.prototype.set`: replaces the entry when the key is present,
appends a new entry otherwise). -/
def mset {α : Type} : List (ℕ × α) → ℕ → α → List (ℕ × α)
  | [], k, v => [(k, v)]
  | (k', v') :: rest, k, v =>
      if k' = k then (k', v) :: rest else (k', v') :: mset rest k v

variable {α : Type}

theorem mget_mset_self (m : List (ℕ × α)) (k : ℕ) (v : α) :
    mget (mset m k v) k = some v := by
  induction m with
  | nil => simp [mset, mget]
  | cons kv rest ih =>
    obtain ⟨k', v'⟩ := kv
    by_cases hk : k' = k
    · simp [mset, mget, hk]
    · simp [mset, mget, hk, ih]

theorem mget_mset_ne (m : List (ℕ × α)) {k k' : ℕ} (v : α) (hne : k' ≠ k) :
    mget (mset m k v) k' = mget m k' := by
  induction m with
  | nil => simp [mset, mget, Ne.symm hne]
  | cons kv rest ih =>
    obtain ⟨k'', v''⟩ := kv
    by_cases hk : k'' = k
    · subst hk
      simp [mset, mget, Ne.symm hne]
    · simp [mset, mget, hk, ih]

theorem mset_eq_of_mget {m : List (ℕ × α)} {k : ℕ} {v : α}
    (h : mget m k = some v) : mset m k v = m := by
  induction m with
  | nil => simp [mget] at h
  | cons kv rest ih =>
    obtain ⟨k', v'⟩ := kv
    by_cases hk : k' = k
    · subst hk
      rw [mget, if_pos rfl] at h
      injection h with h
      simp [mset, h]
    · simp only [mget, if_neg hk] at h
      simp [mset, hk, ih h]

theorem length_mset_le (m : List (ℕ × α)) (k : ℕ) (v : α) :
    (mset m k v).length ≤ m.length + 1 := by
  induction m with
  | nil => simp [mset]
  | cons kv rest ih =>
    obtain ⟨k', v'⟩ := kv
    by_cases hk : k' = k
    · simp [mset, hk]
    · simp only [mset, if_neg hk, List.length_cons]
      omega

/-- Hashing capability consumed by the tree (`src/src/hasher.ts`):
`hash` digests a 64-byte leaf payload, `compress` combines two child
digests. -/
structure Hasher (α : Type) where
  hash : List ℕ → α
  compress : α → α → α

/-- `const MAX_DEPTH = 32`. -/
def MAX_DEPTH : ℕ := 32

/-- `const LEAF_BYTES = 64`. -/
def LEAF_BYTES : ℕ := 64

/-- `Buffer.alloc(LEAF_BYTES)`: 64 zero bytes. -/
def zero64 : List ℕ := List.replicate LEAF_BYTES 0

/-- Iterated self-compression: `squareIter h x n` is the result of applying
`x ↦ compress(x, x)` to `x` exactly `n` times.  This is what the loop of
`populateEmptyHashes` computes step by step. -/
def squareIter (h : Hasher α) (x : α) : ℕ → α
  | 0 => x
  | n + 1 => h.compress (squareIter h x n) (squareIter h x n)

/-- Entry `j` of the `emptyHashes` table built by
`LazyTree.populateEmptyHashes`: the loop stores
`emptyHashes[depth - d] = f^d(hash(zero64))` for `d = 0 .. depth`
(where `f x = compress(x, x)`), i.e. `emptyHashes[j] = f^(depth-j)(hash(zero64))`
for `0 ≤ j ≤ depth`.  Keys above `depth` are absent in the source and are
never consulted by in-range operations. -/
def emptyHash (h : Hasher α) (depth j : ℕ) : α :=
  squareIter h (h.hash zero64) (depth - j)

/-- State of a `LazyTree` instance: the fixed depth and the sparse node map.
The hasher is passed to each operation (the source stores it in the
instance; all operations of one instance use the same hasher). -/
structure LazyTree (α : Type) where
  depth : ℕ
  nodes : List (ℕ × α)
deriving DecidableEq

/-- `new LazyTree(hasher, depth)`: empty node map. -/
def LazyTree.init (depth : ℕ) : LazyTree α := ⟨depth, []⟩

/-- Floor base-2 logarithm by repeated halving, with a structural fuel
argument so that it evaluates by kernel reduction (`log2Aux fuel n`
computes `⌊log2 n⌋` whenever `1 ≤ n ≤ fuel`, see `calculateIndexDepth_spec`). -/
def log2Aux : ℕ → ℕ → ℕ
  | 0, _ => 0
  | fuel + 1, n => if 2 ≤ n then log2Aux fuel (n / 2) + 1 else 0

/-- `LazyTree.calculateIndexDepth`: `Math.floor(Math.log2(index + 1))`. -/
def LazyTree.calculateIndexDepth (index : ℕ) : ℕ :=
  log2Aux (index + 1) (index + 1)

theorem log2Aux_spec : ∀ (fuel n : ℕ), 1 ≤ n → n ≤ fuel →
    2 ^ log2Aux fuel n ≤ n ∧ n < 2 ^ (log2Aux fuel n + 1) := by
  intro fuel
  induction fuel with
  | zero => intro n h1 h2; omega
  | succ fuel IH =>
    intro n h1 h2
    by_cases hn : 2 ≤ n
    · have hrec := IH (n / 2) (by omega) (by omega)
      set k := log2Aux fuel (n / 2) with hk
      have hstep : log2Aux (fuel + 1) n = k + 1 := by
        rw [log2Aux, if_pos hn]
      rw [hstep]
      have e1 : (2 : ℕ) ^ (k + 1) = 2 * 2 ^ k := by ring
      have e2 : (2 : ℕ) ^ (k + 2) = 4 * 2 ^ k := by ring
      rw [e1, e2]
      omega
    · have hstep : log2Aux (fuel + 1) n = 0 := by
        rw [log2Aux, if_neg hn]
      rw [hstep]
      omega

/-- Characterization pinning `calculateIndexDepth` as the floor base-2
logarithm of `index + 1` (the depth of the node in heap layout). -/
theorem calculateIndexDepth_spec (index : ℕ) :
    2 ^ LazyTree.calculateIndexDepth index ≤ index + 1 ∧
      index + 1 < 2 ^ (LazyTree.calculateIndexDepth index + 1) :=
  log2Aux_spec (index + 1) (index + 1) (by omega) (by omega)

/-- `LazyTree.get`: the explicit entry if present, else the empty hash at
the index's depth. -/
def LazyTree.get (h : Hasher α) (t : LazyTree α) (index : ℕ) : α :=
  match mget t.nodes index with
  | some v => v
  | none => emptyHash h t.depth (LazyTree.calculateIndexDepth index)

/-- `LazyTree.getRoot`: `get(0)`. -/
def LazyTree.getRoot (h : Hasher α) (t : LazyTree α) : α := t.get h 0

/-- One step of the `while` walks in `LazyTree.set` / `LazyTree.getPath`:
`parentIdx = parentIdx % 2 === 0 ? (parentIdx - 2) / 2 : (parentIdx - 1) / 2`,
with `none` standing for the negative result (only at index 0) on which the
`if (parentIdx < 0) break` fires. -/
def parentIdx (i : ℕ) : Option ℕ :=
  if i % 2 = 0 then (if i = 0 then none else some ((i - 2) / 2))
  else some ((i - 1) / 2)

theorem parentIdx_eq (i : ℕ) :
    parentIdx i = if i = 0 then none else some ((i - 1) / 2) := by
  unfold parentIdx
  split_ifs with h1 h2 h3
  · rfl
  · exact congrArg some (by omega)
  · omega
  · rfl

theorem parentIdx_lt {i p : ℕ} (h : parentIdx i = some p) : p < i := by
  rw [parentIdx_eq] at h
  by_cases h0 : i = 0
  · rw [if_pos h0] at h
    cases h
  · rw [if_neg h0] at h
    cases h
    omega

/-- Tail of the `while` loop of `LazyTree.set`: starting from the current
index, walk to each ancestor and store `compress(get(2p+1), get(2p+2))`
there. -/
def LazyTree.setLoop (h : Hasher α) (t : LazyTree α) (i : ℕ) : LazyTree α :=
  match hp : parentIdx i with
  | none => t
  | some p =>
      let left := t.get h (2 * p + 1)
      let right := t.get h (2 * p + 2)
      LazyTree.setLoop h ⟨t.depth, mset t.nodes p (h.compress left right)⟩ p
termination_by i
decreasing_by exact parentIdx_lt hp

/-- `LazyTree.set`: store the hash at the index, then recompute every
ancestor up to the root. -/
def LazyTree.set (h : Hasher α) (t : LazyTree α) (index : ℕ) (hash : α) :
    LazyTree α :=
  LazyTree.setLoop h ⟨t.depth, mset t.nodes index hash⟩ index

/-- `LazyTree.getPath`: walk the same ancestor chain as `set`, recording
the `(left, right)` child pair at each visited ancestor (the JS loop
pushes the pairs in this order, nearest level first). -/
def LazyTree.getPath (h : Hasher α) (t : LazyTree α) (i : ℕ) : List (α × α) :=
  match hp : parentIdx i with
  | none => []
  | some p =>
      (t.get h (2 * p + 1), t.get h (2 * p + 2)) :: LazyTree.getPath h t p
termination_by i
decreasing_by exact parentIdx_lt hp

/-- Proof-side description of the index set visited by the ancestor walks:
the proper ancestors of `i`, nearest first, ending at the root. -/
def chain (i : ℕ) : List ℕ :=
  if i = 0 then [] else (i - 1) / 2 :: chain ((i - 1) / 2)
termination_by i
decreasing_by omega

theorem chain_zero : chain 0 = [] := by
  unfold chain
  simp

theorem chain_succ {i : ℕ} (hi : i ≠ 0) :
    chain i = (i - 1) / 2 :: chain ((i - 1) / 2) := by
  conv_lhs => unfold chain
  simp [hi]

theorem mem_chain_lt : ∀ {i p : ℕ}, p ∈ chain i → p < i := by
  intro i
  induction i using Nat.strong_induction_on with
  | _ i IH =>
    intro p hp
    by_cases h0 : i = 0
    · subst h0
      rw [chain_zero] at hp
      cases hp
    · rw [chain_succ h0] at hp
      rcases List.mem_cons.mp hp with h | h
      · omega
      · have := IH ((i - 1) / 2) (by omega) h
        omega

theorem mem_chain_le {i p : ℕ} (h : p ∈ chain i) : p ≤ (i - 1) / 2 := by
  by_cases h0 : i = 0
  · subst h0
    rw [chain_zero] at h
    cases h
  · rw [chain_succ h0] at h
    rcases List.mem_cons.mp h with h | h
    · omega
    · have := mem_chain_lt h
      omega

theorem zero_mem_chain : ∀ {i : ℕ}, i ≠ 0 → 0 ∈ chain i := by
  intro i
  induction i using Nat.strong_induction_on with
  | _ i IH =>
    intro h0
    rw [chain_succ h0]
    by_cases hp : (i - 1) / 2 = 0
    · rw [hp]
      exact List.mem_cons_self _ _
    · exact List.mem_cons_of_mem _ (IH ((i - 1) / 2) (by omega) hp)

theorem chain_nodup : ∀ (i : ℕ), (chain i).Nodup := by
  intro i
  induction i using Nat.strong_induction_on with
  | _ i IH =>
    by_cases h0 : i = 0
    · subst h0
      rw [chain_zero]
      exact List.nodup_nil
    · rw [chain_succ h0]
      refine List.nodup_cons.mpr ⟨fun hmem => ?_, IH ((i - 1) / 2) (by omega)⟩
      have := mem_chain_lt hmem
      omega

theorem parent_mem_chain : ∀ {i c : ℕ}, c ∈ chain i → c ≠ 0 →
    (c - 1) / 2 ∈ chain i := by
  intro i
  induction i using Nat.strong_induction_on with
  | _ i IH =>
    intro c hc hc0
    by_cases h0 : i = 0
    · subst h0
      rw [chain_zero] at hc
      cases hc
    · rw [chain_succ h0] at hc ⊢
      rcases List.mem_cons.mp hc with h | h
      · subst h
        rw [chain_succ hc0]
        exact List.mem_cons_of_mem _ (List.mem_cons_self _ _)
      · exact List.mem_cons_of_mem _ (IH ((i - 1) / 2) (by omega) h hc0)

theorem chain_length : ∀ (D L : ℕ), 2 ^ D - 1 ≤ L → L ≤ 2 ^ (D + 1) - 2 →
    (chain L).length = D := by
  intro D
  induction D with
  | zero =>
    intro L _ h2
    have : L = 0 := by omega
    subst this
    rw [chain_zero]
    rfl
  | succ D IH =>
    intro L h1 h2
    have hm : 1 ≤ 2 ^ D := Nat.one_le_two_pow
    have e1 : (2 : ℕ) ^ (D + 1) = 2 * 2 ^ D := by ring
    have e2 : (2 : ℕ) ^ (D + 2) = 4 * 2 ^ D := by ring
    rw [e1] at h1
    rw [e2] at h2
    have hL0 : L ≠ 0 := by omega
    rw [chain_succ hL0]
    rw [List.length_cons]
    rw [IH ((L - 1) / 2) (by omega) (by rw [e1]; omega)]

theorem setLoop_eq (h : Hasher α) (t : LazyTree α) (i : ℕ) :
    LazyTree.setLoop h t i =
      if i = 0 then t
      else
        LazyTree.setLoop h
          ⟨t.depth,
            mset t.nodes ((i - 1) / 2)
              (h.compress (t.get h (2 * ((i - 1) / 2) + 1))
                (t.get h (2 * ((i - 1) / 2) + 2)))⟩
          ((i - 1) / 2) := by
  by_cases h0 : i = 0
  · rw [if_pos h0]
    subst h0
    conv_lhs => unfold LazyTree.setLoop
    split
    · rfl
    · next p hp =>
      rw [parentIdx_eq, if_pos rfl] at hp
      cases hp
  · rw [if_neg h0]
    conv_lhs => unfold LazyTree.setLoop
    split
    · next hp =>
      rw [parentIdx_eq, if_neg h0] at hp
      cases hp
    · next p hp =>
      rw [parentIdx_eq, if_neg h0] at hp
      cases hp
      rfl

theorem getPath_eq (h : Hasher α) (t : LazyTree α) (i : ℕ) :
    LazyTree.getPath h t i =
      if i = 0 then []
      else
        (t.get h (2 * ((i - 1) / 2) + 1), t.get h (2 * ((i - 1) / 2) + 2)) ::
          LazyTree.getPath h t ((i - 1) / 2) := by
  by_cases h0 : i = 0
  · rw [if_pos h0]
    subst h0
    conv_lhs => unfold LazyTree.getPath
    split
    · rfl
    · next p hp =>
      rw [parentIdx_eq, if_pos rfl] at hp
      cases hp
  · rw [if_neg h0]
    conv_lhs => unfold LazyTree.getPath
    split
    · next hp =>
      rw [parentIdx_eq, if_neg h0] at hp
      cases hp
    · next p hp =>
      rw [parentIdx_eq, if_neg h0] at hp
      cases hp
      rfl

theorem setLoop_depth (h : Hasher α) : ∀ (i : ℕ) (t : LazyTree α),
    (LazyTree.setLoop h t i).depth = t.depth := by
  intro i
  induction i using Nat.strong_induction_on with
  | _ i IH =>
    intro t
    rw [setLoop_eq]
    by_cases h0 : i = 0
    · rw [if_pos h0]
    · rw [if_neg h0]
      rw [IH ((i - 1) / 2) (by omega)]

theorem set_depth (h : Hasher α) (t : LazyTree α) (index : ℕ) (v : α) :
    (t.set h index v).depth = t.depth := by
  unfold LazyTree.set
  rw [setLoop_depth]

theorem get_congr (h : Hasher α) {t₁ t₂ : LazyTree α} (q : ℕ)
    (hd : t₁.depth = t₂.depth) (hn : mget t₁.nodes q = mget t₂.nodes q) :
    t₁.get h q = t₂.get h q := by
  unfold LazyTree.get
  rw [hn, hd]

theorem get_of_mget (h : Hasher α) {t : LazyTree α} {q : ℕ} {x : α}
    (hx : mget t.nodes q = some x) : t.get h q = x := by
  unfold LazyTree.get
  rw [hx]

/-- Postcondition of the ancestor walk of `LazyTree.set`: entries outside
the ancestor chain are untouched, and every ancestor on the chain ends up
holding exactly the compression of its two children as read in the final
state (later iterations only write at strictly smaller indices). -/
theorem setLoop_spec (h : Hasher α) : ∀ (i : ℕ) (t : LazyTree α),
    (∀ q, q ∉ chain i →
        mget (LazyTree.setLoop h t i).nodes q = mget t.nodes q) ∧
    (∀ p ∈ chain i,
        mget (LazyTree.setLoop h t i).nodes p =
          some (h.compress ((LazyTree.setLoop h t i).get h (2 * p + 1))
            ((LazyTree.setLoop h t i).get h (2 * p + 2)))) := by
  intro i
  induction i using Nat.strong_induction_on with
  | _ i IH =>
    intro t
    by_cases h0 : i = 0
    · subst h0
      rw [chain_zero]
      constructor
      · intro q _
        rw [setLoop_eq, if_pos rfl]
      · intro p hp
        cases hp
    · have hstep := setLoop_eq h t i
      rw [if_neg h0] at hstep
      set p := (i - 1) / 2 with hpdef
      set c := h.compress (t.get h (2 * p + 1)) (t.get h (2 * p + 2)) with hcdef
      set t1 : LazyTree α := ⟨t.depth, mset t.nodes p c⟩ with ht1
      obtain ⟨IHframe, IHinv⟩ := IH p (by omega) t1
      have hchain := chain_succ h0
      constructor
      · intro q hq
        rw [hchain] at hq
        have hq1 : q ≠ p := fun hqp => hq (hqp ▸ List.mem_cons_self _ _)
        have hq2 : q ∉ chain p := fun hqc => hq (List.mem_cons_of_mem _ hqc)
        rw [hstep, IHframe q hq2]
        exact mget_mset_ne t.nodes c hq1
      · intro p' hp'
        rw [hchain] at hp'
        rcases List.mem_cons.mp hp' with hp1 | hp1
        · subst hp1
          have hnotmem : p ∉ chain p := fun hmem =>
            absurd (mem_chain_lt hmem) (lt_irrefl p)
          have hval : mget (LazyTree.setLoop h t1 p).nodes p = some c := by
            rw [IHframe p hnotmem, ht1]
            exact mget_mset_self t.nodes p c
          have hside : ∀ j, p < j →
              (LazyTree.setLoop h t1 p).get h j = t.get h j := by
            intro j hj
            refine get_congr h j ?_ ?_
            · rw [setLoop_depth, ht1]
            · have hj1 : j ∉ chain p := fun hmem => by
                have := mem_chain_lt hmem
                omega
              rw [IHframe j hj1, ht1]
              exact mget_mset_ne t.nodes c (by omega)
          rw [hstep, hval, hcdef,
            hside (2 * p + 1) (by omega), hside (2 * p + 2) (by omega)]
        · rw [hstep]
          exact IHinv p' hp1

theorem set_frame (h : Hasher α) (t : LazyTree α) (index : ℕ) (v : α)
    {q : ℕ} (hq : q ∉ index :: chain index) :
    mget (t.set h index v).nodes q = mget t.nodes q := by
  have hq1 : q ≠ index := fun hqi => hq (hqi ▸ List.mem_cons_self _ _)
  have hq2 : q ∉ chain index := fun hqc => hq (List.mem_cons_of_mem _ hqc)
  unfold LazyTree.set
  rw [(setLoop_spec h index _).1 q hq2]
  exact mget_mset_ne t.nodes v hq1

theorem set_leaf (h : Hasher α) (t : LazyTree α) (index : ℕ) (v : α) :
    mget (t.set h index v).nodes index = some v := by
  have hnotmem : index ∉ chain index := fun hmem =>
    absurd (mem_chain_lt hmem) (lt_irrefl index)
  unfold LazyTree.set
  rw [(setLoop_spec h index _).1 index hnotmem]
  exact mget_mset_self t.nodes index v

theorem set_inv (h : Hasher α) (t : LazyTree α) (index : ℕ) (v : α)
    {p : ℕ} (hp : p ∈ chain index) :
    mget (t.set h index v).nodes p =
      some (h.compress ((t.set h index v).get h (2 * p + 1))
        ((t.set h index v).get h (2 * p + 2))) := by
  unfold LazyTree.set
  exact (setLoop_spec h index _).2 p hp

/-- When every ancestor on the chain already holds the compression of its
children, the ancestor walk rewrites each entry with the value it already
has, leaving the tree state unchanged. -/
theorem setLoop_noop (h : Hasher α) : ∀ (i : ℕ) (t : LazyTree α),
    (∀ p ∈ chain i,
        mget t.nodes p =
          some (h.compress (t.get h (2 * p + 1)) (t.get h (2 * p + 2)))) →
    LazyTree.setLoop h t i = t := by
  intro i
  induction i using Nat.strong_induction_on with
  | _ i IH =>
    intro t hinv
    rw [setLoop_eq]
    by_cases h0 : i = 0
    · rw [if_pos h0]
    · rw [if_neg h0]
      have hhead : (i - 1) / 2 ∈ chain i := by
        rw [chain_succ h0]
        exact List.mem_cons_self _ _
      have hmset : mset t.nodes ((i - 1) / 2)
          (h.compress (t.get h (2 * ((i - 1) / 2) + 1))
            (t.get h (2 * ((i - 1) / 2) + 2))) = t.nodes :=
        mset_eq_of_mget (hinv _ hhead)
      rw [hmset]
      exact IH ((i - 1) / 2) (by omega) t fun p hp =>
        hinv p (by rw [chain_succ h0]; exact List.mem_cons_of_mem _ hp)

/-- Repeating `set` with the same digest at the same index leaves the
engine state (every explicit entry) unchanged. -/
theorem set_set_self (h : Hasher α) (t : LazyTree α) (index : ℕ) (v : α) :
    (t.set h index v).set h index v = t.set h index v := by
  have hmset : mset (t.set h index v).nodes index v = (t.set h index v).nodes :=
    mset_eq_of_mget (set_leaf h t index v)
  show LazyTree.setLoop h ⟨(t.set h index v).depth, _⟩ index = _
  rw [hmset]
  exact setLoop_noop h index (t.set h index v) fun p hp => set_inv h t index v hp

theorem setLoop_length (h : Hasher α) : ∀ (i : ℕ) (t : LazyTree α),
    (LazyTree.setLoop h t i).nodes.length ≤ t.nodes.length + (chain i).length := by
  intro i
  induction i using Nat.strong_induction_on with
  | _ i IH =>
    intro t
    rw [setLoop_eq]
    by_cases h0 : i = 0
    · rw [if_pos h0, h0, chain_zero]
      exact Nat.le_add_right _ _
    · rw [if_neg h0, chain_succ h0]
      refine le_trans (IH ((i - 1) / 2) (by omega) _) ?_
      have := length_mset_le t.nodes ((i - 1) / 2)
        (h.compress (t.get h (2 * ((i - 1) / 2) + 1))
          (t.get h (2 * ((i - 1) / 2) + 2)))
      simp only [List.length_cons]
      omega

theorem set_length (h : Hasher α) (t : LazyTree α) (index : ℕ) (v : α) :
    (t.set h index v).nodes.length ≤ t.nodes.length + (chain index).length + 1 := by
  unfold LazyTree.set
  have h1 := setLoop_length h index
    (LazyTree.mk t.depth (mset t.nodes index v) : LazyTree α)
  have h2 := length_mset_le t.nodes index v
  dsimp only at h1
  omega

theorem getPath_length (h : Hasher α) : ∀ (i : ℕ) (t : LazyTree α),
    (LazyTree.getPath h t i).length = (chain i).length := by
  intro i
  induction i using Nat.strong_induction_on with
  | _ i IH =>
    intro t
    rw [getPath_eq]
    by_cases h0 : i = 0
    · rw [if_pos h0, h0, chain_zero]
      rfl
    · rw [if_neg h0, chain_succ h0]
      simp only [List.length_cons]
      rw [IH ((i - 1) / 2) (by omega) t]

/-- Verifier-side reconstruction described by the specification: starting
from the claimed leaf digest, combine with each recorded `(left, right)`
pair, taking the pair's non-participating side according to the position
(odd index = left child, even index = right child), and move to the
parent index. -/
def reconPath (h : Hasher α) : α → ℕ → List (α × α) → α
  | x, _, [] => x
  | x, i, (l, r) :: rest =>
      reconPath h (if i % 2 = 1 then h.compress x r else h.compress l x)
        ((i - 1) / 2) rest

/-- In a state where every ancestor of `i` on the chain holds the
compression of its children (as `set` guarantees), reconstructing from
`get(i)` along `getPath(i)` reaches `get(0)`, the root. -/
theorem reconPath_getPath (h : Hasher α) (t : LazyTree α) : ∀ (i : ℕ),
    i ≠ 0 →
    (∀ p ∈ chain i,
        t.get h p = h.compress (t.get h (2 * p + 1)) (t.get h (2 * p + 2))) →
    reconPath h (t.get h i) i (LazyTree.getPath h t i) = t.get h 0 := by
  intro i
  induction i using Nat.strong_induction_on with
  | _ i IH =>
    intro h0 hinv
    rw [getPath_eq, if_neg h0]
    set p := (i - 1) / 2 with hpdef
    have hphead : p ∈ chain i := by
      rw [chain_succ h0]
      exact List.mem_cons_self _ _
    have hstep : (if i % 2 = 1 then h.compress (t.get h i) (t.get h (2 * p + 2))
        else h.compress (t.get h (2 * p + 1)) (t.get h i)) = t.get h p := by
      by_cases hodd : i % 2 = 1
      · have : 2 * p + 1 = i := by omega
        rw [if_pos hodd, ← this, ← hinv p hphead]
      · have : 2 * p + 2 = i := by omega
        rw [if_neg hodd, ← this, ← hinv p hphead]
    show reconPath h _ p _ = _
    rw [hstep]
    by_cases hp0 : p = 0
    · rw [hp0, getPath_eq, if_pos rfl]
      rfl
    · exact IH p (by omega) hp0 fun q hq =>
        hinv q (by rw [chain_succ h0]; exact List.mem_cons_of_mem _ hq)

/-- A leaf entry written by a first `set` survives a second `set` at a
different index whose ancestor chain avoids it. -/
theorem set_set_leaf (h : Hasher α) (t : LazyTree α) {L1 L2 : ℕ} (a b : α)
    (hne : L1 ≠ L2) (hnc : L1 ∉ chain L2) :
    mget ((t.set h L1 a).set h L2 b).nodes L1 = some a := by
  rw [set_frame h _ L2 b (fun hmem => by
    rcases List.mem_cons.mp hmem with hc | hc
    · exact hne hc
    · exact hnc hc)]
  exact set_leaf h t L1 a

theorem set_set_frame (h : Hasher α) (t : LazyTree α) {L1 L2 q : ℕ} (a b : α)
    (h1 : q ∉ L1 :: chain L1) (h2 : q ∉ L2 :: chain L2) :
    mget ((t.set h L1 a).set h L2 b).nodes q = mget t.nodes q := by
  rw [set_frame h _ L2 b h2, set_frame h t L1 a h1]

/-- After two successive `set`s at indices whose chains avoid each other's
leaf, every node on either ancestor chain holds the compression of its two
children as read in the final state. -/
theorem set_set_inv (h : Hasher α) (t : LazyTree α) {L1 L2 : ℕ} (a b : α)
    (hL2 : L2 ≠ 0) (hc12 : ∀ p ∈ chain L1, p ≠ L2) :
    ∀ q, q ∈ chain L1 ∨ q ∈ chain L2 →
      mget ((t.set h L1 a).set h L2 b).nodes q =
        some (h.compress (((t.set h L1 a).set h L2 b).get h (2 * q + 1))
          (((t.set h L1 a).set h L2 b).get h (2 * q + 2))) := by
  intro q hq
  by_cases hq2 : q ∈ chain L2
  · exact set_inv h _ L2 b hq2
  · have hq1 : q ∈ chain L1 := by tauto
    have hqU : q ∉ L2 :: chain L2 := by
      intro hmem
      rcases List.mem_cons.mp hmem with hc | hc
      · exact hc12 q hq1 hc
      · exact hq2 hc
    have hchild : ∀ j, (j - 1) / 2 = q → j ≠ 0 → j ∉ L2 :: chain L2 := by
      intro j hj hj0 hmem
      apply hq2
      rcases List.mem_cons.mp hmem with hc | hc
      · subst hc
        rw [← hj]
        rw [chain_succ hL2]
        exact List.mem_cons_self _ _
      · rw [← hj]
        exact parent_mem_chain hc hj0
    have hg : ∀ j, (j - 1) / 2 = q → j ≠ 0 →
        ((t.set h L1 a).set h L2 b).get h j = (t.set h L1 a).get h j := by
      intro j e hj0
      refine get_congr h j ?_ ?_
      · rw [set_depth]
      · exact set_frame h _ L2 b (hchild j e hj0)
    rw [set_frame h _ L2 b hqU, set_inv h t L1 a hq1,
      hg (2 * q + 1) (by omega) (by omega), hg (2 * q + 2) (by omega) (by omega)]

/-- Core of order independence: after setting two distinct leaves of a
depth-`D` tree in either order, every node of the tree reads the same
digest.  The induction measure counts down from the index bound
`2^(D+1)`, so that the recursion from a chain node to its two children
terminates. -/
theorem set_comm_get (h : Hasher α) (t : LazyTree α) (D Li Lj : ℕ) (a b : α)
    (hi1 : 2 ^ D - 1 ≤ Li) (hi2 : Li ≤ 2 ^ (D + 1) - 2)
    (hj1 : 2 ^ D - 1 ≤ Lj) (hj2 : Lj ≤ 2 ^ (D + 1) - 2)
    (hne : Li ≠ Lj) :
    ∀ (k q : ℕ), 2 ^ (D + 1) ≤ q + k →
      ((t.set h Li a).set h Lj b).get h q =
        ((t.set h Lj b).set h Li a).get h q := by
  have hm : 1 ≤ 2 ^ D := Nat.one_le_two_pow
  have e1 : (2 : ℕ) ^ (D + 1) = 2 * 2 ^ D := by ring
  rw [e1] at hi2 hj2
  have hm2 : 2 ≤ 2 ^ D := by
    rcases Nat.lt_or_ge (2 ^ D) 2 with hlt | hge
    · exact absurd (by omega : Li = Lj) hne
    · exact hge
  have hLi0 : Li ≠ 0 := by omega
  have hLj0 : Lj ≠ 0 := by omega
  have hchainle : ∀ {L p : ℕ}, p ∈ chain L → p ≤ (L - 1) / 2 :=
    fun hp => mem_chain_le hp
  have hnotc_ij : Li ∉ chain Lj := fun hmem => by
    have := mem_chain_le hmem
    omega
  have hnotc_ji : Lj ∉ chain Li := fun hmem => by
    have := mem_chain_le hmem
    omega
  have hne12 : ∀ p ∈ chain Li, p ≠ Lj := fun p hp heq => by
    have := mem_chain_le hp
    omega
  have hne21 : ∀ p ∈ chain Lj, p ≠ Li := fun p hp heq => by
    have := mem_chain_le hp
    omega
  have hleaf_i_12 : mget ((t.set h Li a).set h Lj b).nodes Li = some a :=
    set_set_leaf h t a b hne hnotc_ij
  have hleaf_i_21 : mget ((t.set h Lj b).set h Li a).nodes Li = some a :=
    set_leaf h _ Li a
  have hleaf_j_12 : mget ((t.set h Li a).set h Lj b).nodes Lj = some b :=
    set_leaf h _ Lj b
  have hleaf_j_21 : mget ((t.set h Lj b).set h Li a).nodes Lj = some b :=
    set_set_leaf h t b a (Ne.symm hne) hnotc_ji
  have hinv12 := set_set_inv h t a b hLj0 hne12
  have hinv21 := set_set_inv h t b a hLi0 hne21
  intro k
  induction k with
  | zero =>
    intro q hq
    rw [e1] at hq
    have huntouched : ∀ {L : ℕ}, L ≤ 2 * 2 ^ D - 2 → q ∉ L :: chain L := by
      intro L hL hmem
      rcases List.mem_cons.mp hmem with hc | hc
      · omega
      · have := mem_chain_le hc
        omega
    refine get_congr h q (by simp only [set_depth]) ?_
    rw [set_set_frame h t a b (huntouched hi2) (huntouched hj2),
      set_set_frame h t b a (huntouched hj2) (huntouched hi2)]
  | succ k IHk =>
    intro q hq
    by_cases hqi : q = Li
    · subst hqi
      rw [get_of_mget h hleaf_i_12, get_of_mget h hleaf_i_21]
    · by_cases hqj : q = Lj
      · subst hqj
        rw [get_of_mget h hleaf_j_12, get_of_mget h hleaf_j_21]
      · by_cases hqc : q ∈ chain Li ∨ q ∈ chain Lj
        · rw [get_of_mget h (hinv12 q hqc), get_of_mget h (hinv21 q (Or.symm hqc)),
            IHk (2 * q + 1) (by omega), IHk (2 * q + 2) (by omega)]
        · have hnm1 : q ∉ Li :: chain Li := by
            intro hmem
            rcases List.mem_cons.mp hmem with hc | hc
            · exact hqi hc
            · exact hqc (Or.inl hc)
          have hnm2 : q ∉ Lj :: chain Lj := by
            intro hmem
            rcases List.mem_cons.mp hmem with hc | hc
            · exact hqj hc
            · exact hqc (Or.inr hc)
          refine get_congr h q (by simp only [set_depth]) ?_
          rw [set_set_frame h t a b hnm1 hnm2, set_set_frame h t b a hnm2 hnm1]

/-- Errors produced by the levelup store operations: `notFound` is the
rejection levelup's `get` uses for an absent key; `ioError` stands for any
other store failure. -/
inductive DbError
  | notFound
  | ioError
deriving DecidableEq

/-- Outcomes of the store operations `MerkleTree.new` performs, which is
all the tree observes of the database: the metadata `db.get(Buffer.from(name))`
(with its decoded 32-byte root and 4-byte little-endian depth on success),
the full scan of the per-tree element namespace (`createReadStream`, with
records already decoded from their decimal-string keys and hex values, in
stream order), and whether the metadata `put` succeeds. -/
structure DbState (α : Type) where
  metaGet : Except DbError (α × ℕ)
  scan : Except DbError (List (ℕ × α))
  putMetaOk : Bool

/-- Failure modes of `MerkleTree.new`: the constructor's depth validation
(`throw Error('Bad depth')`), the restore check (`throw Error('Root
mismatch')`), and a store failure propagated through an `await`. -/
inductive NewError
  | badDepth
  | rootMismatch
  | storeError (e : DbError)
deriving DecidableEq

/-- `MerkleTree.elementTreeIndex`: `index + Math.pow(2, this.depth) - 1`. -/
def elementTreeIndex (depth index : ℕ) : ℕ := index + 2 ^ depth - 1

/-- State of a `MerkleTree` handle: tree name, depth, and the in-memory
engine. -/
structure MerkleTree (α : Type) where
  name : String
  depth : ℕ
  tree : LazyTree α
deriving DecidableEq

/-- `MerkleTree.restoreElements`: replay every persisted leaf record into
the engine (`this.tree.set(this.elementTreeIndex(index), value)`) in the
order the stream yields them. -/
def MerkleTree.restoreElements (h : Hasher α) (t : MerkleTree α)
    (records : List (ℕ × α)) : MerkleTree α :=
  { t with
    tree := records.foldl
      (fun tr rec => tr.set h (elementTreeIndex t.depth rec.1) rec.2) t.tree }

/-- `MerkleTree.getRoot`: delegates to the engine. -/
def MerkleTree.getRoot (h : Hasher α) (t : MerkleTree α) : α :=
  t.tree.getRoot h

/-- `MerkleTree.getHashPath`:
`new HashPath(this.tree.getPath(this.elementTreeIndex(index)))`, modelled
as the list of pairs the `HashPath` wraps. -/
def MerkleTree.getHashPath (h : Hasher α) (t : MerkleTree α) (index : ℕ) :
    List (α × α) :=
  t.tree.getPath h (elementTreeIndex t.depth index)

/-- `MerkleTree.new`.  The source's `db.get(Buffer.from(name)).catch(() => {})`
turns any rejection — absent key and genuine I/O failure alike — into
`undefined`; the constructor then validates the depth (`throw
Error('Bad depth')` unless `1 ≤ depth ≤ MAX_DEPTH`).  With metadata
present the stored depth shadows the caller's argument, all persisted
elements are replayed, and the recomputed root is compared against the
stored root; without metadata, a fresh tree is built and its metadata
written (a failing put rejects the call with the store's error). -/
def MerkleTree.new [DecidableEq α] (h : Hasher α) (db : DbState α)
    (name : String) (depth : ℕ := MAX_DEPTH) : Except NewError (MerkleTree α) :=
  let meta : Option (α × ℕ) :=
    match db.metaGet with
    | Except.ok m => some m
    | Except.error _ => none
  match meta with
  | some (root, d) =>
      if 1 ≤ d ∧ d ≤ MAX_DEPTH then
        match db.scan with
        | Except.error e => Except.error (NewError.storeError e)
        | Except.ok records =>
            let tr := MerkleTree.restoreElements h ⟨name, d, LazyTree.init d⟩
              records
            if tr.getRoot h = root then Except.ok tr
            else Except.error NewError.rootMismatch
      else Except.error NewError.badDepth
  | none =>
      if 1 ≤ depth ∧ depth ≤ MAX_DEPTH then
        if db.putMetaOk then Except.ok ⟨name, depth, LazyTree.init depth⟩
        else Except.error (NewError.storeError DbError.ioError)
      else Except.error NewError.badDepth

/-- `MerkleTree.new` with the defaulted depth argument (`depth = MAX_DEPTH`). -/
def MerkleTree.newDefault [DecidableEq α] (h : Hasher α) (db : DbState α)
    (name : String) : Except NewError (MerkleTree α) :=
  MerkleTree.new h db name

/-- `MerkleTree.updateElement`: digest the value, update the engine in
memory (the leaf and all its ancestors), then persist the leaf record and
the metadata record, returning the new root.  `leafPutOk` / `metaPutOk`
model the outcomes of the two awaited `put`s; a rejection propagates to
the caller, after the synchronous in-memory update has already happened. -/
def MerkleTree.updateElement (h : Hasher α) (t : MerkleTree α)
    (leafPutOk metaPutOk : Bool) (index : ℕ) (value : List ℕ) :
    MerkleTree α × Except DbError α :=
  let hash := h.hash value
  let t' : MerkleTree α :=
    { t with tree := t.tree.set h (elementTreeIndex t.depth index) hash }
  if leafPutOk then
    if metaPutOk then (t', Except.ok (t'.getRoot h))
    else (t', Except.error DbError.ioError)
  else (t', Except.error DbError.ioError)

/-- Empty-subtree table exactly as the specification words it:
`empty[D] = hash(zero-64-bytes)` and
`empty[d] = compress(empty[d+1], empty[d+1])` for `d = D−1 .. 0`. -/
def specEmpty (h : Hasher α) (D d : ℕ) : α :=
  if D ≤ d then h.hash zero64
  else h.compress (specEmpty h D (d + 1)) (specEmpty h D (d + 1))
termination_by D - d
decreasing_by omega

theorem specEmpty_eq (h : Hasher α) (D d : ℕ) :
    specEmpty h D d =
      if D ≤ d then h.hash zero64
      else h.compress (specEmpty h D (d + 1)) (specEmpty h D (d + 1)) := by
  conv_lhs => unfold specEmpty

/-- The table the engine precomputes agrees with the specification's
recursive definition on every depth `d ≤ D`. -/
theorem emptyHash_eq_specEmpty (h : Hasher α) (D : ℕ) :
    ∀ (n d : ℕ), D - d = n → d ≤ D → emptyHash h D d = specEmpty h D d := by
  intro n
  induction n with
  | zero =>
    intro d hn hd
    have hdD : d = D := by omega
    subst hdD
    rw [specEmpty_eq, if_pos le_rfl]
    unfold emptyHash
    rw [Nat.sub_self]
    rfl
  | succ n IH =>
    intro d hn hd
    have hlt : d < D := by omega
    rw [specEmpty_eq, if_neg (by omega)]
    rw [← IH (d + 1) (by omega) (by omega)]
    unfold emptyHash
    have hsub : D - d = (D - (d + 1)) + 1 := by omega
    rw [hsub]
    rfl

/-- Concrete digest type for witness computations: the free algebra over
`hash` and `compress`, so distinct digest computations are distinct
values. -/
inductive ToyDigest
  | leaf (v : List ℕ)
  | node (l r : ToyDigest)
deriving DecidableEq

/-- Concrete hasher instantiation used by the witnesses. -/
def toyHasher : Hasher ToyDigest := ⟨ToyDigest.leaf, ToyDigest.node⟩

/-- C3: for every depth D in [1, 32], a freshly opened tree (no metadata
record in the store, metadata write succeeding) is returned with no
leaves ever set, and its `getRoot()` equals the depth-0 entry of the
empty-subtree table defined by `empty[D] = hash(zero-64-bytes)` and
`empty[d] = compress(empty[d+1], empty[d+1])` for `d = D−1 .. 0`. -/
theorem C3_fresh_root_is_empty_table [DecidableEq α] (h : Hasher α)
    (db : DbState α) (name : String) (D : ℕ) (hD1 : 1 ≤ D) (hD2 : D ≤ 32)
    (hmeta : db.metaGet = Except.error DbError.notFound)
    (hput : db.putMetaOk = true) :
    MerkleTree.new h db name D = Except.ok ⟨name, D, LazyTree.init D⟩ ∧
      MerkleTree.getRoot h (⟨name, D, LazyTree.init D⟩ : MerkleTree α) =
        specEmpty h D 0 := by
  constructor
  · simp only [MerkleTree.new, hmeta, hput]
    rw [if_pos (⟨hD1, hD2⟩ : 1 ≤ D ∧ D ≤ MAX_DEPTH)]
    rw [if_pos trivial]
  · have hroot : MerkleTree.getRoot h
        (⟨name, D, LazyTree.init D⟩ : MerkleTree α) = emptyHash h D 0 := rfl
    rw [hroot, emptyHash_eq_specEmpty h D D 0 (by omega) (by omega)]

/-- Witness for C3 at depth 2 with a concrete store state. -/
theorem C3_fresh_root_is_empty_table_witness :
    ((1 : ℕ) ≤ 2 ∧ (2 : ℕ) ≤ 32) ∧
    MerkleTree.new toyHasher
        ⟨Except.error DbError.notFound, Except.ok [], true⟩ "t" 2 =
      Except.ok ⟨"t", 2, LazyTree.init 2⟩ ∧
    MerkleTree.getRoot toyHasher
        (⟨"t", 2, LazyTree.init 2⟩ : MerkleTree ToyDigest) =
      specEmpty toyHasher 2 0 := by
  refine ⟨by decide, ?_, ?_⟩
  · exact (C3_fresh_root_is_empty_table toyHasher
      ⟨Except.error DbError.notFound, Except.ok [], true⟩ "t" 2
      (by decide) (by decide) rfl rfl).1
  · exact (C3_fresh_root_is_empty_table toyHasher
      ⟨Except.error DbError.notFound, Except.ok [], true⟩ "t" 2
      (by decide) (by decide) rfl rfl).2

/-- C9: `MerkleTree.new` without an explicit depth argument uses
`depth = MAX_DEPTH = 32`; with no persisted metadata the constructed tree
has depth 32. -/
theorem C9_default_depth_is_max [DecidableEq α] (h : Hasher α)
    (db : DbState α) (name : String)
    (hmeta : db.metaGet = Except.error DbError.notFound)
    (hput : db.putMetaOk = true) :
    MAX_DEPTH = 32 ∧
      MerkleTree.newDefault h db name =
        Except.ok ⟨name, 32, LazyTree.init 32⟩ := by
  refine ⟨rfl, ?_⟩
  simp only [MerkleTree.newDefault, MerkleTree.new, hmeta, hput]
  rw [if_pos (⟨by decide, by decide⟩ : 1 ≤ MAX_DEPTH ∧ MAX_DEPTH ≤ MAX_DEPTH)]
  rw [if_pos trivial]
  rfl

/-- Witness for C9 with a concrete store state. -/
theorem C9_default_depth_is_max_witness :
    (⟨Except.error DbError.notFound, Except.ok [], true⟩ :
        DbState ToyDigest).metaGet = Except.error DbError.notFound ∧
    MerkleTree.newDefault toyHasher
        ⟨Except.error DbError.notFound, Except.ok [], true⟩ "t" =
      Except.ok ⟨"t", 32, LazyTree.init 32⟩ :=
  ⟨rfl, (C9_default_depth_is_max toyHasher
    ⟨Except.error DbError.notFound, Except.ok [], true⟩ "t" rfl rfl).2⟩

/-- C8: when a metadata record exists at open time, the tree is built with
the depth decoded from the stored metadata; the caller-requested depth is
ignored. -/
theorem C8_stored_depth_overrides_requested [DecidableEq α] (h : Hasher α)
    (db : DbState α) (name : String) (reqDepth : ℕ) (root : α) (d : ℕ)
    (tr : MerkleTree α)
    (hmeta : db.metaGet = Except.ok (root, d))
    (hok : MerkleTree.new h db name reqDepth = Except.ok tr) :
    tr.depth = d := by
  cases hscan : db.scan with
  | error e =>
    simp only [MerkleTree.new, hmeta, hscan] at hok
    by_cases hd : 1 ≤ d ∧ d ≤ MAX_DEPTH
    · rw [if_pos hd] at hok
      cases hok
    · rw [if_neg hd] at hok
      cases hok
  | ok records =>
    simp only [MerkleTree.new, hmeta, hscan] at hok
    by_cases hd : 1 ≤ d ∧ d ≤ MAX_DEPTH
    · rw [if_pos hd] at hok
      by_cases hroot : (MerkleTree.restoreElements h ⟨name, d, LazyTree.init d⟩
          records).getRoot h = root
      · rw [if_pos hroot] at hok
        cases hok
        rfl
      · rw [if_neg hroot] at hok
        cases hok
    · rw [if_neg hd] at hok
      cases hok

/-- Witness for C8: stored depth 1 wins over the requested depth 7. -/
theorem C8_stored_depth_overrides_requested_witness :
    (⟨Except.ok (ToyDigest.node (ToyDigest.leaf zero64) (ToyDigest.leaf zero64), 1),
        Except.ok [], true⟩ : DbState ToyDigest).metaGet =
      Except.ok (ToyDigest.node (ToyDigest.leaf zero64) (ToyDigest.leaf zero64), 1) ∧
    (MerkleTree.restoreElements toyHasher ⟨"t", 1, LazyTree.init 1⟩
        ([] : List (ℕ × ToyDigest))).depth = 1 := by
  constructor
  · rfl
  · exact C8_stored_depth_overrides_requested toyHasher
      ⟨Except.ok (ToyDigest.node (ToyDigest.leaf zero64) (ToyDigest.leaf zero64), 1),
        Except.ok [], true⟩ "t" 7 _ 1 _ rfl rfl

/-- C2: opening a tree whose metadata record exists replays every
persisted leaf record into the engine and compares the recomputed root
with the stored root: equal → the restored tree handle is returned;
unequal (e.g. a leaf record deleted or altered out-of-band) → open fails
with the root-mismatch error and no tree is returned. -/
theorem C2_open_replays_and_validates_root [DecidableEq α] (h : Hasher α)
    (db : DbState α) (name : String) (reqDepth : ℕ) (root : α) (d : ℕ)
    (records : List (ℕ × α))
    (hmeta : db.metaGet = Except.ok (root, d))
    (hd1 : 1 ≤ d) (hd2 : d ≤ 32)
    (hscan : db.scan = Except.ok records) :
    ((MerkleTree.restoreElements h ⟨name, d, LazyTree.init d⟩ records).getRoot h
        = root →
      MerkleTree.new h db name reqDepth =
        Except.ok (MerkleTree.restoreElements h ⟨name, d, LazyTree.init d⟩
          records)) ∧
    ((MerkleTree.restoreElements h ⟨name, d, LazyTree.init d⟩ records).getRoot h
        ≠ root →
      MerkleTree.new h db name reqDepth = Except.error NewError.rootMismatch) := by
  have hred : MerkleTree.new h db name reqDepth =
      if (MerkleTree.restoreElements h ⟨name, d, LazyTree.init d⟩
          records).getRoot h = root then
        Except.ok (MerkleTree.restoreElements h ⟨name, d, LazyTree.init d⟩ records)
      else Except.error NewError.rootMismatch := by
    simp only [MerkleTree.new, hmeta, hscan]
    rw [if_pos (⟨hd1, hd2⟩ : 1 ≤ d ∧ d ≤ MAX_DEPTH)]
  constructor
  · intro heq
    rw [hred, if_pos heq]
  · intro hne
    rw [hred, if_neg hne]

/-- Witness for C2: with no persisted leaf records, opening against the
correct stored empty root succeeds, and opening against a corrupted
stored root fails with the root-mismatch error. -/
theorem C2_open_replays_and_validates_root_witness :
    MerkleTree.new toyHasher
        ⟨Except.ok (ToyDigest.node (ToyDigest.leaf zero64) (ToyDigest.leaf zero64), 1),
          Except.ok [], true⟩ "t" 1 =
      Except.ok (MerkleTree.restoreElements toyHasher ⟨"t", 1, LazyTree.init 1⟩ []) ∧
    MerkleTree.new toyHasher
        ⟨Except.ok (ToyDigest.leaf [9], 1), Except.ok [], true⟩ "t" 1 =
      Except.error NewError.rootMismatch := by
  constructor
  · exact (C2_open_replays_and_validates_root toyHasher
      ⟨Except.ok (ToyDigest.node (ToyDigest.leaf zero64) (ToyDigest.leaf zero64), 1),
        Except.ok [], true⟩ "t" 1 _ 1 [] rfl (by decide) (by decide) rfl).1 rfl
  · exact (C2_open_replays_and_validates_root toyHasher
      ⟨Except.ok (ToyDigest.leaf [9], 1), Except.ok [], true⟩ "t" 1 _ 1 []
      rfl (by decide) (by decide) rfl).2 (by decide)

/-- Counterexample to C4 as stated: the store's metadata `get` fails with
a genuine I/O error (not the not-found rejection), yet `MerkleTree.new`
succeeds and returns a fresh usable tree — the failure is swallowed by the
`.catch(() => {})` on line 139 of the source instead of surfacing to the
caller. -/
theorem C4_counterexample_get_error_swallowed :
    MerkleTree.new toyHasher
        ⟨Except.error DbError.ioError, Except.ok [], true⟩ "t" 2 =
      Except.ok ⟨"t", 2, LazyTree.init 2⟩ ∧
    DbError.ioError ≠ DbError.notFound :=
  ⟨rfl, by decide⟩

/-- C4 amended: store failures during `put` (the leaf write and the
metadata write of `updateElement`, and the metadata write of a fresh
open) and during the restore scan are propagated to the caller,
distinguishably from `InvalidDepth` and `RootMismatch`; however, a store
failure of the metadata `get` at open time is silently swallowed by
`.catch(() => {})` and treated as absent metadata, so open proceeds to
create a fresh tree instead of reporting the error. -/
theorem C4_put_scan_errors_propagate_but_meta_get_swallowed
    [DecidableEq α] (h : Hasher α) (db db' : DbState α) (name : String)
    (depth : ℕ) (e : DbError) (root : α) (d : ℕ) (t : MerkleTree α)
    (i : ℕ) (v : List ℕ) (b : Bool) :
    (db.metaGet = Except.ok (root, d) → 1 ≤ d → d ≤ 32 →
      db.scan = Except.error e →
      MerkleTree.new h db name depth = Except.error (NewError.storeError e)) ∧
    ((t.updateElement h false b i v).2 = Except.error DbError.ioError) ∧
    ((t.updateElement h true false i v).2 = Except.error DbError.ioError) ∧
    (db'.metaGet = Except.error e → 1 ≤ depth → depth ≤ 32 →
      db'.putMetaOk = false →
      MerkleTree.new h db' name depth =
        Except.error (NewError.storeError DbError.ioError)) ∧
    (NewError.storeError e ≠ NewError.badDepth ∧
      NewError.storeError e ≠ NewError.rootMismatch) ∧
    (db'.metaGet = Except.error e → 1 ≤ depth → depth ≤ 32 →
      db'.putMetaOk = true →
      MerkleTree.new h db' name depth =
        Except.ok ⟨name, depth, LazyTree.init depth⟩) := by
  refine ⟨?_, ?_, ?_, ?_, ?_, ?_⟩
  · intro hmeta hd1 hd2 hscan
    simp only [MerkleTree.new, hmeta, hscan]
    rw [if_pos (⟨hd1, hd2⟩ : 1 ≤ d ∧ d ≤ MAX_DEPTH)]
  · cases b <;> rfl
  · rfl
  · intro hmeta hd1 hd2 hput
    simp only [MerkleTree.new, hmeta, hput]
    rw [if_pos (⟨hd1, hd2⟩ : 1 ≤ depth ∧ depth ≤ MAX_DEPTH)]
    rw [if_neg (by simp : ¬false = true)]
  · constructor
    · intro hc
      cases hc
    · intro hc
      cases hc
  · intro hmeta hd1 hd2 hput
    simp only [MerkleTree.new, hmeta, hput]
    rw [if_pos (⟨hd1, hd2⟩ : 1 ≤ depth ∧ depth ≤ MAX_DEPTH)]
    rw [if_pos trivial]

/-- Witness for the amended C4, at concrete store states: a failing scan
propagates, failing puts propagate, and a failing metadata get is
swallowed. -/
theorem C4_put_scan_errors_propagate_witness :
    MerkleTree.new toyHasher
        ⟨Except.ok (ToyDigest.leaf [], 2), Except.error DbError.ioError, true⟩
        "t" 5 = Except.error (NewError.storeError DbError.ioError) ∧
    ((⟨"t", 2, LazyTree.init 2⟩ : MerkleTree ToyDigest).updateElement
        toyHasher false true 0 zero64).2 = Except.error DbError.ioError ∧
    ((⟨"t", 2, LazyTree.init 2⟩ : MerkleTree ToyDigest).updateElement
        toyHasher true false 0 zero64).2 = Except.error DbError.ioError ∧
    MerkleTree.new toyHasher
        ⟨Except.error DbError.ioError, Except.ok [], false⟩ "t" 2 =
      Except.error (NewError.storeError DbError.ioError) ∧
    NewError.storeError DbError.ioError ≠ NewError.badDepth ∧
    MerkleTree.new toyHasher
        ⟨Except.error DbError.ioError, Except.ok [], true⟩ "t" 2 =
      Except.ok ⟨"t", 2, LazyTree.init 2⟩ := by
  obtain ⟨h1, -, -, -, -, -⟩ :=
    C4_put_scan_errors_propagate_but_meta_get_swallowed toyHasher
      ⟨Except.ok (ToyDigest.leaf [], 2), Except.error DbError.ioError, true⟩
      ⟨Except.error DbError.ioError, Except.ok [], false⟩ "t" 5
      DbError.ioError (ToyDigest.leaf []) 2 ⟨"t", 2, LazyTree.init 2⟩ 0 zero64
      true
  obtain ⟨-, h2, h3, h4, h5, -⟩ :=
    C4_put_scan_errors_propagate_but_meta_get_swallowed toyHasher
      ⟨Except.ok (ToyDigest.leaf [], 2), Except.error DbError.ioError, true⟩
      ⟨Except.error DbError.ioError, Except.ok [], false⟩ "t" 2
      DbError.ioError (ToyDigest.leaf []) 2 ⟨"t", 2, LazyTree.init 2⟩ 0 zero64
      true
  obtain ⟨-, -, -, -, -, h6⟩ :=
    C4_put_scan_errors_propagate_but_meta_get_swallowed toyHasher
      ⟨Except.ok (ToyDigest.leaf [], 2), Except.error DbError.ioError, true⟩
      ⟨Except.error DbError.ioError, Except.ok [], true⟩ "t" 2
      DbError.ioError (ToyDigest.leaf []) 2 ⟨"t", 2, LazyTree.init 2⟩ 0 zero64
      true
  exact ⟨h1 rfl (by decide) (by decide) rfl, h2, h3,
    h4 rfl (by decide) (by decide) rfl, h5.1,
    h6 rfl (by decide) (by decide) rfl⟩

/-- C10: `updateElement` mutates the in-memory engine before either
durable write; a failing leaf or metadata put propagates the store error,
but the handle keeps the updated engine state, so a subsequent
`getRoot()` returns the new root — the same root a fully successful
update returns (and the one the successful call reports). -/
theorem C10_failed_update_keeps_new_state (h : Hasher α) (t : MerkleTree α)
    (i : ℕ) (v : List ℕ) (lp mp : Bool) (hfail : lp = false ∨ mp = false) :
    (t.updateElement h lp mp i v).2 = Except.error DbError.ioError ∧
    (t.updateElement h lp mp i v).1 =
      ⟨t.name, t.depth,
        t.tree.set h (elementTreeIndex t.depth i) (h.hash v)⟩ ∧
    (t.updateElement h lp mp i v).1.getRoot h =
      (t.updateElement h true true i v).1.getRoot h ∧
    (t.updateElement h true true i v).2 =
      Except.ok ((t.updateElement h lp mp i v).1.getRoot h) := by
  have hfst : (t.updateElement h lp mp i v).1 =
      ⟨t.name, t.depth,
        t.tree.set h (elementTreeIndex t.depth i) (h.hash v)⟩ := by
    cases lp <;> cases mp <;> rfl
  have hsnd : (t.updateElement h lp mp i v).2 =
      Except.error DbError.ioError := by
    rcases hfail with hl | hm
    · subst hl
      cases mp <;> rfl
    · subst hm
      cases lp <;> rfl
  refine ⟨hsnd, hfst, ?_, ?_⟩
  · rw [hfst]
    rfl
  · rw [hfst]
    rfl

/-- Witness for C10: the metadata put fails. -/
theorem C10_failed_update_keeps_new_state_witness :
    ((true = false ∨ false = false) ∧ True) ∧
    ((⟨"t", 1, LazyTree.init 1⟩ : MerkleTree ToyDigest).updateElement
        toyHasher true false 0 zero64).2 = Except.error DbError.ioError ∧
    ((⟨"t", 1, LazyTree.init 1⟩ : MerkleTree ToyDigest).updateElement
        toyHasher true false 0 zero64).1.getRoot toyHasher =
      ((⟨"t", 1, LazyTree.init 1⟩ : MerkleTree ToyDigest).updateElement
        toyHasher true true 0 zero64).1.getRoot toyHasher := by
  have hthm := C10_failed_update_keeps_new_state toyHasher
    ⟨"t", 1, LazyTree.init 1⟩ 0 zero64 true false (by decide)
  exact ⟨⟨by decide, trivial⟩, hthm.1, hthm.2.2.1⟩

/-- C5: `updateElement(i, v)` twice in succession is the same call result
and handle state as once, and at the engine level repeating `set` with
the same digest at the same index leaves every explicit entry — leaf and
all recomputed ancestors — identical. -/
theorem C5_update_idempotent (h : Hasher α) (t : MerkleTree α) (i : ℕ)
    (v : List ℕ) (hi : i < 2 ^ t.depth) (hv : v.length = LEAF_BYTES) :
    ((t.updateElement h true true i v).1.updateElement h true true i v) =
      t.updateElement h true true i v ∧
    (∀ (tr : LazyTree α) (L : ℕ) (a : α),
      (tr.set h L a).set h L a = tr.set h L a) := by
  constructor
  · have hpair : ((t.updateElement h true true i v).1.updateElement h true
        true i v) =
        (⟨t.name, t.depth,
            (t.tree.set h (elementTreeIndex t.depth i) (h.hash v)).set h
              (elementTreeIndex t.depth i) (h.hash v)⟩,
          Except.ok (LazyTree.getRoot h
            ((t.tree.set h (elementTreeIndex t.depth i) (h.hash v)).set h
              (elementTreeIndex t.depth i) (h.hash v)))) := rfl
    rw [hpair, set_set_self h t.tree (elementTreeIndex t.depth i) (h.hash v)]
    rfl
  · intro tr L a
    exact set_set_self h tr L a

/-- Witness for C5 at a concrete index and payload. -/
theorem C5_update_idempotent_witness :
    ((1 : ℕ) < 2 ^ (⟨"t", 2, LazyTree.init 2⟩ :
        MerkleTree ToyDigest).depth ∧
      (List.replicate 64 3).length = LEAF_BYTES) ∧
    (((⟨"t", 2, LazyTree.init 2⟩ : MerkleTree ToyDigest).updateElement
        toyHasher true true 1 (List.replicate 64 3)).1.updateElement
        toyHasher true true 1 (List.replicate 64 3)) =
      (⟨"t", 2, LazyTree.init 2⟩ : MerkleTree ToyDigest).updateElement
        toyHasher true true 1 (List.replicate 64 3) := by
  refine ⟨⟨by decide, by decide⟩, ?_⟩
  exact (C5_update_idempotent toyHasher ⟨"t", 2, LazyTree.init 2⟩ 1
    (List.replicate 64 3) (by decide) (by decide)).1

/-- C7: a single engine `set` at a leaf index of a depth-D tree writes
exactly D+1 explicit entries — the leaf itself plus its D ancestors up to
and including the root (index 0) — leaving every other entry of the
sparse map untouched, so the map grows by at most D+1 entries per leaf
set. -/
theorem C7_set_writes_exactly_depth_plus_one_entries (h : Hasher α)
    (t : LazyTree α) (D L : ℕ) (v : α) (ht : t.depth = D)
    (hD1 : 1 ≤ D) (hD2 : D ≤ 32)
    (hL1 : 2 ^ D - 1 ≤ L) (hL2 : L ≤ 2 ^ (D + 1) - 2) :
    (L :: chain L).length = D + 1 ∧
    (L :: chain L).Nodup ∧
    0 ∈ L :: chain L ∧
    (∀ q ∈ L :: chain L, (mget (t.set h L v).nodes q).isSome = true) ∧
    (∀ q, q ∉ L :: chain L → mget (t.set h L v).nodes q = mget t.nodes q) ∧
    (t.set h L v).nodes.length ≤ t.nodes.length + (D + 1) := by
  have hm : 1 ≤ 2 ^ D := Nat.one_le_two_pow
  have hc := chain_length D L hL1 hL2
  have hL0 : L ≠ 0 := by
    have h2 : (2 : ℕ) ≤ 2 ^ D := by
      calc (2 : ℕ) = 2 ^ 1 := rfl
        _ ≤ 2 ^ D := Nat.pow_le_pow_right (by omega) hD1
    omega
  refine ⟨?_, ?_, ?_, ?_, ?_, ?_⟩
  · rw [List.length_cons, hc]
  · exact List.nodup_cons.mpr
      ⟨fun hmem => absurd (mem_chain_lt hmem) (lt_irrefl L), chain_nodup L⟩
  · exact List.mem_cons_of_mem _ (zero_mem_chain hL0)
  · intro q hq
    rcases List.mem_cons.mp hq with hq | hq
    · subst hq
      rw [set_leaf h t q v]
      rfl
    · rw [set_inv h t L v hq]
      rfl
  · intro q hq
    exact set_frame h t L v hq
  · have := set_length h t L v
    omega

/-- Witness for C7 at depth 2, leaf node index 5. -/
theorem C7_set_writes_exactly_depth_plus_one_entries_witness :
    ((2 : ℕ) ^ 2 - 1 ≤ 5 ∧ (5 : ℕ) ≤ 2 ^ 3 - 2) ∧
    ((5 : ℕ) :: chain 5).length = 3 ∧
    (0 : ℕ) ∈ (5 : ℕ) :: chain 5 ∧
    ((LazyTree.init 2 : LazyTree ToyDigest).set toyHasher 5
        (ToyDigest.leaf [7])).nodes.length ≤
      (LazyTree.init 2 : LazyTree ToyDigest).nodes.length + 3 := by
  have hthm := C7_set_writes_exactly_depth_plus_one_entries toyHasher
    (LazyTree.init 2) 2 5 (ToyDigest.leaf [7]) rfl (by decide) (by decide)
    (by decide) (by decide)
  exact ⟨⟨by decide, by decide⟩, hthm.1, hthm.2.2.1, hthm.2.2.2.2.2⟩

/-- C6: updating two distinct in-range leaves in either order yields the
same final root, both as reported by the second `updateElement` call and
as read back from the handle. -/
theorem C6_update_order_independent (h : Hasher α) (t : MerkleTree α)
    (i j : ℕ) (vi vj : List ℕ) (hne : i ≠ j)
    (hi : i < 2 ^ t.depth) (hj : j < 2 ^ t.depth) :
    (((t.updateElement h true true i vi).1.updateElement h true true j
        vj).1.getRoot h =
      ((t.updateElement h true true j vj).1.updateElement h true true i
        vi).1.getRoot h) ∧
    (((t.updateElement h true true i vi).1.updateElement h true true j
        vj).2 =
      ((t.updateElement h true true j vj).1.updateElement h true true i
        vi).2) := by
  have hm : 1 ≤ 2 ^ t.depth := Nat.one_le_two_pow
  have e1 : (2 : ℕ) ^ (t.depth + 1) = 2 * 2 ^ t.depth := by ring
  have hcomm := set_comm_get h t.tree t.depth
    (elementTreeIndex t.depth i) (elementTreeIndex t.depth j)
    (h.hash vi) (h.hash vj)
    (by unfold elementTreeIndex; omega)
    (by unfold elementTreeIndex; omega)
    (by unfold elementTreeIndex; omega)
    (by unfold elementTreeIndex; omega)
    (by unfold elementTreeIndex; omega)
    (2 ^ (t.depth + 1)) 0 (by omega)
  exact ⟨hcomm, congrArg Except.ok hcomm⟩

/-- Witness for C6 at depth 1, leaves 0 and 1. -/
theorem C6_update_order_independent_witness :
    ((0 : ℕ) ≠ 1 ∧
      (0 : ℕ) < 2 ^ (⟨"t", 1, LazyTree.init 1⟩ : MerkleTree ToyDigest).depth ∧
      (1 : ℕ) < 2 ^ (⟨"t", 1, LazyTree.init 1⟩ : MerkleTree ToyDigest).depth) ∧
    (((⟨"t", 1, LazyTree.init 1⟩ : MerkleTree ToyDigest).updateElement
        toyHasher true true 0 (List.replicate 64 1)).1.updateElement
        toyHasher true true 1 (List.replicate 64 2)).1.getRoot toyHasher =
      (((⟨"t", 1, LazyTree.init 1⟩ : MerkleTree ToyDigest).updateElement
        toyHasher true true 1 (List.replicate 64 2)).1.updateElement
        toyHasher true true 0 (List.replicate 64 1)).1.getRoot toyHasher := by
  refine ⟨⟨by decide, by decide, by decide⟩, ?_⟩
  exact (C6_update_order_independent toyHasher ⟨"t", 1, LazyTree.init 1⟩ 0 1
    (List.replicate 64 1) (List.replicate 64 2) (by decide) (by decide)
    (by decide)).1

/-- C1: for every valid depth D, in-range external index i and 64-byte
payload v, `updateElement(i, v)` followed by `getHashPath(i)` yields
exactly D (left, right) pairs, ordered leaf level upward, such that
reconstructing from `hash(v)` through each recorded pair (entering on the
side given by the index parity at each level) reproduces the value
`getRoot()` returns — which is also the root the update call itself
returned. -/
theorem C1_update_then_path_reconstructs_root (h : Hasher α)
    (t : MerkleTree α) (D i : ℕ) (v : List ℕ) (ht : t.depth = D)
    (hD1 : 1 ≤ D) (hD2 : D ≤ 32) (hi : i < 2 ^ D)
    (hv : v.length = LEAF_BYTES) :
    ((t.updateElement h true true i v).1.getHashPath h i).length = D ∧
    reconPath h (h.hash v) (elementTreeIndex D i)
        ((t.updateElement h true true i v).1.getHashPath h i) =
      (t.updateElement h true true i v).1.getRoot h ∧
    (t.updateElement h true true i v).2 =
      Except.ok ((t.updateElement h true true i v).1.getRoot h) := by
  subst ht
  have hm : 1 ≤ 2 ^ t.depth := Nat.one_le_two_pow
  have h2 : (2 : ℕ) ≤ 2 ^ t.depth := by
    calc (2 : ℕ) = 2 ^ 1 := rfl
      _ ≤ 2 ^ t.depth := Nat.pow_le_pow_right (by omega) hD1
  have e1 : (2 : ℕ) ^ (t.depth + 1) = 2 * 2 ^ t.depth := by ring
  have hLval : elementTreeIndex t.depth i = i + 2 ^ t.depth - 1 := rfl
  have hL1 : 2 ^ t.depth - 1 ≤ elementTreeIndex t.depth i := by omega
  have hL2 : elementTreeIndex t.depth i ≤ 2 ^ (t.depth + 1) - 2 := by omega
  have hL0 : elementTreeIndex t.depth i ≠ 0 := by omega
  have hinv : ∀ p ∈ chain (elementTreeIndex t.depth i),
      (t.tree.set h (elementTreeIndex t.depth i) (h.hash v)).get h p =
        h.compress
          ((t.tree.set h (elementTreeIndex t.depth i) (h.hash v)).get h
            (2 * p + 1))
          ((t.tree.set h (elementTreeIndex t.depth i) (h.hash v)).get h
            (2 * p + 2)) := by
    intro p hp
    exact get_of_mget h (set_inv h t.tree (elementTreeIndex t.depth i)
      (h.hash v) hp)
  have hstart : (t.tree.set h (elementTreeIndex t.depth i) (h.hash v)).get h
      (elementTreeIndex t.depth i) = h.hash v :=
    get_of_mget h (set_leaf h t.tree (elementTreeIndex t.depth i) (h.hash v))
  have hrecon := reconPath_getPath h
    (t.tree.set h (elementTreeIndex t.depth i) (h.hash v))
    (elementTreeIndex t.depth i) hL0 hinv
  rw [hstart] at hrecon
  refine ⟨?_, hrecon, rfl⟩
  show ((t.tree.set h (elementTreeIndex t.depth i) (h.hash v)).getPath h
      (elementTreeIndex t.depth i)).length = t.depth
  rw [getPath_length h (elementTreeIndex t.depth i)
    (t.tree.set h (elementTreeIndex t.depth i) (h.hash v)),
    chain_length t.depth (elementTreeIndex t.depth i) hL1 hL2]

/-- Witness for C1 at depth 2, external index 2, a concrete payload. -/
theorem C1_update_then_path_reconstructs_root_witness :
    ((⟨"t", 2, LazyTree.init 2⟩ : MerkleTree ToyDigest).depth = 2 ∧
      (2 : ℕ) < 2 ^ 2 ∧ (List.replicate 64 1).length = LEAF_BYTES) ∧
    (((⟨"t", 2, LazyTree.init 2⟩ : MerkleTree ToyDigest).updateElement
        toyHasher true true 2 (List.replicate 64 1)).1.getHashPath
        toyHasher 2).length = 2 := by
  refine ⟨⟨rfl, by decide, by decide⟩, ?_⟩
  exact (C1_update_then_path_reconstructs_root toyHasher
    ⟨"t", 2, LazyTree.init 2⟩ 2 2 (List.replicate 64 1) rfl (by decide)
    (by decide) (by decide) (by decide)).1
